import Mathlib

/-!
Verification of the Klipper accelerometer drivers
(`klippy/extras/adxl345.py` and `klippy/extras/lis2dw.py`).

Modelling conventions:
* Python floats are modelled as exact rationals (`ℚ`); Python's unbounded
  integers as `ℕ` / `ℤ`.
* Python lists are Lean lists.  An operation that can raise a runtime
  error (an out-of-range list write) is modelled in `Option`, `none`
  standing for the raised exception.
* For a nonnegative Python integer `n`, the expression `n & ~0xffff`
  equals `65536 * (n / 65536)`, and `m & 0xffff` equals `m % 65536`
  (Python bitwise operators act on the two's-complement picture of
  unbounded integers); the definitions below use those arithmetic forms,
  keeping the genuine `|||`, `&&&`, `<<<` where the operands are plain
  naturals.
-/

namespace KlipperAccel

/-- Constant `FREEFALL_ACCEL = 9.80665 * 1000.` (mm/s^2). -/
def FREEFALL_ACCEL : ℚ := 9.80665 * 1000

/-- Constant `SCALE = 0.0039 * FREEFALL_ACCEL` (3.9 mg/LSB). -/
def SCALE : ℚ := 0.0039 * FREEFALL_ACCEL

/-- Constant `DUR_SCALE = 0.000625`. -/
def DUR_SCALE : ℚ := 0.000625

/-- Constant `TAP_SCALE = 0.0625 * FREEFALL_ACCEL` (62.5 mg/LSB). -/
def TAP_SCALE : ℚ := 0.0625 * FREEFALL_ACCEL

/-- Constant `OFS_SCALE = 0.0156 * FREEFALL_ACCEL` (15.6 mg/LSB). -/
def OFS_SCALE : ℚ := 0.0156 * FREEFALL_ACCEL

/-- Offset registers `REG_OFSX, REG_OFSY, REG_OFSZ`. -/
def REG_OFSX : ℕ := 0x1E

/-- Offset register for the y axis. -/
def REG_OFSY : ℕ := 0x1F

/-- Offset register for the z axis. -/
def REG_OFSZ : ℕ := 0x20

/-!  ## Sequence reconciliation (`ADXL345._handle_adxl345_data` and
`ADXL345._convert_sequence`)  -/

/-- One step of the 16-bit-to-64-bit sequence extension:
`sequence = (last_sequence & ~0xffff) | raw`;
`if sequence < last_sequence: sequence += 0x10000`.
For nonnegative `last_sequence` the mask `last_sequence & ~0xffff` is
`65536 * (last_sequence / 65536)`. -/
def extendSeq (last_sequence raw : ℕ) : ℕ :=
  let sequence := (65536 * (last_sequence / 65536)) ||| raw
  if sequence < last_sequence then sequence + 65536 else sequence

lemma lor_block_eq_add (q raw : ℕ) (h : raw < 65536) :
    (65536 * q) ||| raw = 65536 * q + raw := by
  have h16 : (65536 : ℕ) = 2 ^ 16 := by norm_num
  rw [h16] at h ⊢
  exact (Nat.mul_add_lt_is_or h q).symm

lemma extendSeq_eq_arith (last raw : ℕ) (h : raw < 65536) :
    extendSeq last raw =
      if 65536 * (last / 65536) + raw < last
      then 65536 * (last / 65536) + raw + 65536
      else 65536 * (last / 65536) + raw := by
  unfold extendSeq
  rw [lor_block_eq_add _ _ h]

/-- The extension step never decreases the extended counter. -/
lemma extendSeq_ge (last raw : ℕ) (h : raw < 65536) :
    last ≤ extendSeq last raw := by
  rw [extendSeq_eq_arith last raw h]
  split <;> omega

/-- If the true count `t` lies within one wrap period above the current
extended counter, the step recovers `t` exactly from its low 16 bits. -/
lemma extendSeq_recovers (last t : ℕ) (h1 : last ≤ t) (h2 : t < last + 65536) :
    extendSeq last (t % 65536) = t := by
  rw [extendSeq_eq_arith last (t % 65536) (Nat.mod_lt _ (by norm_num))]
  split <;> omega

/-- A true block-count trace with at most one wraparound between
consecutive entries (and between the session-reset count `0` and the
first entry). -/
def ValidTrace (ts : List ℕ) : Prop :=
  List.Chain (fun a b => a ≤ b ∧ b < a + 65536) 0 ts

lemma scanl_extendSeq_recovers :
    ∀ (ts : List ℕ) (prev : ℕ),
      List.Chain (fun a b => a ≤ b ∧ b < a + 65536) prev ts →
      List.scanl extendSeq prev (ts.map (· % 65536)) = prev :: ts := by
  intro ts
  induction ts with
  | nil => intro prev _; simp [List.scanl]
  | cons t ts ih =>
      intro prev hchain
      rcases hchain with _ | ⟨⟨h1, h2⟩, hrest⟩
      simp only [List.map_cons, List.scanl]
      rw [extendSeq_recovers prev t h1 h2, ih t hrest]

/-- C1: for every sequence of 16-bit sequence observations with at most one
wraparound between consecutive entries, repeatedly applying the extension
step yields a `last_sequence` that is non-decreasing across updates and
equal to the true monotonic block count (regressing only on session reset,
which restarts the fold at `0`). -/
theorem c1_sequence_extension :
    (∀ last raw : ℕ, raw < 65536 → last ≤ extendSeq last raw) ∧
    (∀ ts : List ℕ, ValidTrace ts →
      List.scanl extendSeq 0 (ts.map (· % 65536)) = 0 :: ts) := by
  refine ⟨fun last raw h => extendSeq_ge last raw h, fun ts h => ?_⟩
  exact scanl_extendSeq_recovers ts 0 h

/-- C1 witness: a concrete trace crossing the 16-bit wrap boundary. -/
theorem c1_sequence_extension_witness :
    (5 : ℕ) < 65536 ∧ 70000 ≤ extendSeq 70000 5 ∧
    List.scanl extendSeq 0
        (([100, 65535, 65600, 131071, 131072] : List ℕ).map (· % 65536)) =
      0 :: [100, 65535, 65600, 131071, 131072] := by
  refine ⟨by norm_num, c1_sequence_extension.1 70000 5 (by norm_num),
    c1_sequence_extension.2 [100, 65535, 65600, 131071, 131072] ?_⟩
  unfold ValidTrace
  refine .cons ⟨?_, ?_⟩ (.cons ⟨?_, ?_⟩ (.cons ⟨?_, ?_⟩
    (.cons ⟨?_, ?_⟩ (.cons ⟨?_, ?_⟩ .nil)))) <;> norm_num

/-!  ## Data model for decoded samples and session results  -/

/-- Namedtuple `Accel_Measurement = (time, accel_x, accel_y, accel_z)`. -/
structure Accel_Measurement where
  time : ℚ
  accel_x : ℚ
  accel_y : ℚ
  accel_z : ℚ
deriving DecidableEq

/-- An axes map: the three `(source index, scale)` pairs produced from the
`axes_map` config option (destructured in `decode_samples` as
`(x_pos, x_scale), (y_pos, y_scale), (z_pos, z_scale)`). -/
structure AxesMap where
  x : ℕ × ℚ
  y : ℕ × ℚ
  z : ℕ × ℚ
deriving DecidableEq

/-- Default axes map for `axes_map: x,y,z`. -/
def defaultAxesMap : AxesMap :=
  ⟨(0, SCALE), (1, SCALE), (2, SCALE)⟩

/-- List view of an axes map, used by `_offset_axes`, which indexes
`self.axes_map[axis]` for `axis` in `(0, 1, 2)`. -/
def AxesMap.entries (am : AxesMap) : List (ℕ × ℚ) := [am.x, am.y, am.z]

/-- Payload of the last raw block (`raw_samples[-1][1]`), `[]` when there is
no block. -/
def lastData (l : List (ℕ × List ℕ)) : List ℕ :=
  ((l.getLast?).map Prod.snd).getD []

/-- Count of complete samples actually buffered:
`sum([len(data)//6 for _, data in raw_samples])`. -/
def actualCount (l : List (ℕ × List ℕ)) : ℕ :=
  (l.map (fun p => p.2.length / 6)).sum

/-- State of an `ADXL345Results` object.  `raw_samples` is `[]` both for
Python's `None` (fresh object) and for an empty list; the two are
indistinguishable to the code, which only tests falsiness. -/
structure ADXL345Results where
  raw_samples : List (ℕ × List ℕ)
  samples : List (Option Accel_Measurement)
  drops : ℤ
  overflows : ℕ
  time_per_sample : ℚ
  start_range : ℚ
  end_range : ℚ
  axes_map : AxesMap
  start2_time : ℚ
  total_count : ℕ
  seq_to_time : ℚ
deriving DecidableEq

/-- Constructor `ADXL345Results.__init__`.  The fields `axes_map`,
`start2_time`, `total_count` and `seq_to_time` are unset attributes in
Python until `setup_data` runs; they carry inert defaults here. -/
def ADXL345Results.init : ADXL345Results :=
  { raw_samples := []
    samples := []
    drops := 0
    overflows := 0
    time_per_sample := 0
    start_range := 0
    end_range := 0
    axes_map := defaultAxesMap
    start2_time := 0
    total_count := 0
    seq_to_time := 0 }

/-- Method `ADXL345Results.setup_data`.  Returns the object unchanged when
`raw_samples` is empty or `end_sequence` is zero (both falsy in Python). -/
def ADXL345Results.setup_data (r : ADXL345Results) (axes_map : AxesMap)
    (raw_samples : List (ℕ × List ℕ)) (end_sequence overflows : ℕ)
    (start1_time start2_time end1_time end2_time : ℚ) : ADXL345Results :=
  if raw_samples = [] ∨ end_sequence = 0 then r
  else
    let total_count := (end_sequence - 1) * 8 + (lastData raw_samples).length / 6
    let total_time := end2_time - start2_time
    let time_per_sample := total_time / (total_count : ℚ)
    { r with
      axes_map := axes_map
      raw_samples := raw_samples
      overflows := overflows
      start2_time := start2_time
      start_range := start2_time - start1_time
      end_range := end2_time - end1_time
      total_count := total_count
      time_per_sample := time_per_sample
      seq_to_time := time_per_sample * 8
      drops := (total_count : ℤ) - (actualCount raw_samples : ℤ) }

/-!  ## C2: nonnegative drop count for well-formed sessions  -/

/-- Sequence number of the last buffered block (0 when there is none). -/
def lastSeqOf (l : List (ℕ × List ℕ)) : ℕ :=
  ((l.getLast?).map Prod.fst).getD 0

lemma actualCount_cons (b : ℕ × List ℕ) (l : List (ℕ × List ℕ)) :
    actualCount (b :: l) = b.2.length / 6 + actualCount l := by
  simp [actualCount]

lemma actualCount_le_aux :
    ∀ (rest : List (ℕ × List ℕ)) (b : ℕ × List ℕ),
      List.Chain' (fun p q => p.1 < q.1) (b :: rest) →
      (∀ x ∈ b :: rest, x.2.length / 6 ≤ 8) →
      actualCount (b :: rest) + 8 * b.1 ≤
        8 * lastSeqOf (b :: rest) + (lastData (b :: rest)).length / 6 := by
  intro rest
  induction rest with
  | nil =>
      intro b _ _
      simp [actualCount, lastSeqOf, lastData]
      omega
  | cons q qs ih =>
      intro b hchain hb
      have hlt : b.1 < q.1 := (List.chain'_cons.mp hchain).1
      have hrest := (List.chain'_cons.mp hchain).2
      have hcb : b.2.length / 6 ≤ 8 := hb b (by simp)
      have ihq := ih q hrest (fun x hx => hb x (List.mem_cons_of_mem b hx))
      have hlast1 : lastSeqOf (b :: q :: qs) = lastSeqOf (q :: qs) := by
        simp [lastSeqOf, List.getLast?_cons_cons]
      have hlast2 : lastData (b :: q :: qs) = lastData (q :: qs) := by
        simp [lastData, List.getLast?_cons_cons]
      rw [actualCount_cons, actualCount_cons, hlast1, hlast2]
      rw [actualCount_cons] at ihq
      omega

/-- C2: for a well-formed finished session (buffered blocks in strictly
increasing sequence order, every block holding at most eight complete
samples, final sequence one past the last buffered block), the drop count
computed by `setup_data` is nonnegative. -/
theorem c2_drops_nonneg (r : ADXL345Results) (axes_map : AxesMap)
    (raw_samples : List (ℕ × List ℕ)) (overflows : ℕ)
    (start1_time start2_time end1_time end2_time : ℚ)
    (hne : raw_samples ≠ [])
    (hchain : List.Chain' (fun p q => p.1 < q.1) raw_samples)
    (hsize : ∀ x ∈ raw_samples, x.2.length / 6 ≤ 8) :
    0 ≤ (r.setup_data axes_map raw_samples (lastSeqOf raw_samples + 1)
          overflows start1_time start2_time end1_time end2_time).drops := by
  obtain ⟨b, rest, rfl⟩ := List.exists_cons_of_ne_nil hne
  have key := actualCount_le_aux rest b hchain hsize
  unfold ADXL345Results.setup_data
  rw [if_neg (by simp)]
  simp only
  have hact : actualCount (b :: rest) ≤
      8 * lastSeqOf (b :: rest) + (lastData (b :: rest)).length / 6 := by omega
  have : (lastSeqOf (b :: rest) + 1 - 1) * 8 = 8 * lastSeqOf (b :: rest) := by
    omega
  rw [this]
  push_cast
  omega

/-- C2 witness: a session with a gap (sequences 0, 2, final block partial). -/
theorem c2_drops_nonneg_witness :
    ([((0 : ℕ), List.replicate 48 (0 : ℕ)), (2, List.replicate 13 0)] ≠
        ([] : List (ℕ × List ℕ))) ∧
    0 ≤ (ADXL345Results.init.setup_data defaultAxesMap
          [(0, List.replicate 48 0), (2, List.replicate 13 0)]
          (lastSeqOf [(0, List.replicate 48 0), (2, List.replicate 13 0)] + 1)
          0 0 0 1 2).drops := by
  refine ⟨by simp, c2_drops_nonneg ADXL345Results.init defaultAxesMap
    [(0, List.replicate 48 0), (2, List.replicate 13 0)] 0 0 0 1 2
    (by simp) ?_ ?_⟩
  · refine List.chain'_cons.mpr ⟨by norm_num, ?_⟩
    exact List.chain'_singleton _
  · intro x hx
    fin_cases hx <;> simp

/-!  ## Sample decoding (`ADXL345Results.decode_samples`)  -/

/-- Two's-complement decode of one little-endian byte pair, from the
`sdata` comprehension: `(d[i] | (d[i+1] << 8)) - ((d[i+1] & 0x80) << 9)`. -/
def decodePair (lo hi : ℕ) : ℤ :=
  ((lo ||| (hi <<< 8) : ℕ) : ℤ) - (((hi &&& 0x80) <<< 9 : ℕ) : ℤ)

/-- The `sdata` list of `decode_samples`: one decoded word per byte pair
`(d[2*j], d[2*j+1])` for `j < count // 2` (Python `range(0, count-1, 2)`
enumerates exactly the even indices below `count - 1`). -/
def sdataOf (d : List ℕ) : List ℤ :=
  (List.range (d.length / 2)).map
    (fun j => decodePair (d.getD (2 * j) 0) (d.getD (2 * j + 1) 0))

lemma sdataOf_length (d : List ℕ) : (sdataOf d).length = d.length / 2 := by
  simp [sdataOf]

/-- Sample `i` of a raw block inside `decode_samples`:
`samp_time = seq_time + i * time_per_sample` with
`seq_time = start2_time + seq * seq_to_time`, and each axis value is
`sdata[i*3 + pos] * scale` for that axis's map entry. -/
def sampleOf (axes_map : AxesMap) (start2_time seq_to_time time_per_sample : ℚ)
    (seq : ℕ) (data : List ℕ) (i : ℕ) : Accel_Measurement :=
  let sdata := sdataOf data
  let seq_time := start2_time + (seq : ℚ) * seq_to_time
  { time := seq_time + (i : ℚ) * time_per_sample
    accel_x := ((sdata.getD (i * 3 + axes_map.x.1) 0 : ℤ) : ℚ) * axes_map.x.2
    accel_y := ((sdata.getD (i * 3 + axes_map.y.1) 0 : ℤ) : ℚ) * axes_map.y.2
    accel_z := ((sdata.getD (i * 3 + axes_map.z.1) 0 : ℤ) : ℚ) * axes_map.z.2 }

/-- All samples decoded from one raw block: the inner loop
`for i in range(count//6)` of `decode_samples`. -/
def blockSamples (axes_map : AxesMap)
    (start2_time seq_to_time time_per_sample : ℚ)
    (b : ℕ × List ℕ) : List Accel_Measurement :=
  (List.range (b.2.length / 6)).map
    (sampleOf axes_map start2_time seq_to_time time_per_sample b.1 b.2)

lemma blockSamples_length (axes_map : AxesMap) (s2 stt tps : ℚ)
    (b : ℕ × List ℕ) :
    (blockSamples axes_map s2 stt tps b).length = b.2.length / 6 := by
  simp [blockSamples]

/-- Sequential placeholder writes `samples[count] = s; count += 1`.
A write past the end of the preallocated list is Python's `IndexError`,
modelled as `none`. -/
def writeSeq (arr : List (Option Accel_Measurement)) (count : ℕ) :
    List Accel_Measurement → Option (List (Option Accel_Measurement) × ℕ)
  | [] => some (arr, count)
  | s :: rest =>
      if count < arr.length
      then writeSeq (arr.set count (some s)) (count + 1) rest
      else none

/-- The outer loop of `decode_samples` (and of `_extract_samples`): write
each block's decoded samples into the placeholder array in order.  `f`
turns one raw block into its decoded samples. -/
def fillLoop (f : ℕ × List ℕ → List Accel_Measurement) :
    List (ℕ × List ℕ) → List (Option Accel_Measurement) × ℕ →
      Option (List (Option Accel_Measurement) × ℕ)
  | [], st => some st
  | b :: bs, st => (writeSeq st.1 st.2 (f b)).bind (fillLoop f bs)

/-- Method `ADXL345Results.decode_samples`.  Returns the (empty) `samples`
list when no raw data was set up; otherwise preallocates
`[None] * total_count`, fills it block by block, and truncates at the
final write position (`del samples[actual_count:]`). -/
def ADXL345Results.decode_samples (r : ADXL345Results) :
    Option (List (Option Accel_Measurement)) :=
  if r.raw_samples = [] then some r.samples
  else
    (fillLoop
        (blockSamples r.axes_map r.start2_time r.seq_to_time r.time_per_sample)
        r.raw_samples (List.replicate r.total_count none, 0)).map
      (fun st => st.1.take st.2)

/-!  ## Specification of the placeholder-array fill  -/

/-- Concatenation of the per-block decoded sample lists, in block order. -/
def decodedAll (f : ℕ × List ℕ → List Accel_Measurement)
    (bs : List (ℕ × List ℕ)) : List Accel_Measurement :=
  (bs.map f).flatten

lemma decodedAll_nil (f : ℕ × List ℕ → List Accel_Measurement) :
    decodedAll f [] = [] := rfl

lemma decodedAll_cons (f : ℕ × List ℕ → List Accel_Measurement)
    (b : ℕ × List ℕ) (bs : List (ℕ × List ℕ)) :
    decodedAll f (b :: bs) = f b ++ decodedAll f bs := by
  simp [decodedAll]

lemma decodedAll_blockSamples_length (am : AxesMap) (s2 stt tps : ℚ)
    (bs : List (ℕ × List ℕ)) :
    (decodedAll (blockSamples am s2 stt tps) bs).length = actualCount bs := by
  simp only [decodedAll, List.length_flatten, actualCount, List.map_map]
  have : (List.length ∘ blockSamples am s2 stt tps) =
      fun p : ℕ × List ℕ => p.2.length / 6 :=
    funext (fun p => blockSamples_length am s2 stt tps p)
  rw [this]

lemma set_append_length_left {α : Type} :
    ∀ (pre : List α) (post : List α) (v : α),
      (pre ++ post).set pre.length v = pre ++ post.set 0 v := by
  intro pre
  induction pre with
  | nil => intro post v; rfl
  | cons a pre ih => intro post v; simp [List.set, ih]

lemma writeSeq_some :
    ∀ (l : List Accel_Measurement)
      (pre post : List (Option Accel_Measurement)),
      l.length ≤ post.length →
      writeSeq (pre ++ post) pre.length l =
        some (pre ++ l.map some ++ post.drop l.length,
              pre.length + l.length) := by
  intro l
  induction l with
  | nil => intro pre post _; simp [writeSeq]
  | cons s rest ih =>
      intro pre post hlen
      obtain ⟨q, qs, rfl⟩ : ∃ q qs, post = q :: qs := by
        cases post with
        | nil => simp at hlen
        | cons q qs => exact ⟨q, qs, rfl⟩
      have hlt : pre.length < (pre ++ q :: qs).length := by
        simp
      rw [writeSeq, if_pos hlt, set_append_length_left]
      have hset : (q :: qs).set 0 (some s) = some s :: qs := rfl
      rw [hset]
      have hassoc : pre ++ some s :: qs = (pre ++ [some s]) ++ qs := by
        simp
      have hplen : pre.length + 1 = (pre ++ [some s]).length := by simp
      rw [hassoc, hplen, ih (pre ++ [some s]) qs (by simpa using hlen)]
      simp only [List.map_cons, List.length_cons, List.drop_succ_cons,
        List.append_assoc, List.singleton_append, List.cons_append,
        List.length_append, List.length_nil, Option.some.injEq,
        Prod.mk.injEq]
      exact ⟨rfl, by omega⟩

lemma fillLoop_some (f : ℕ × List ℕ → List Accel_Measurement) :
    ∀ (bs : List (ℕ × List ℕ))
      (pre post : List (Option Accel_Measurement)),
      (decodedAll f bs).length ≤ post.length →
      fillLoop f bs (pre ++ post, pre.length) =
        some (pre ++ (decodedAll f bs).map some ++
                post.drop (decodedAll f bs).length,
              pre.length + (decodedAll f bs).length) := by
  intro bs
  induction bs with
  | nil => intro pre post _; simp [fillLoop, decodedAll]
  | cons b bs ih =>
      intro pre post hlen
      rw [decodedAll_cons] at hlen ⊢
      have h1 : (f b).length ≤ post.length := by
        simp at hlen; omega
      rw [fillLoop, writeSeq_some (f b) pre post h1]
      simp only [Option.some_bind]
      have hplen : pre.length + (f b).length =
          (pre ++ (f b).map some).length := by simp
      rw [hplen, ih (pre ++ (f b).map some) (post.drop (f b).length)
        (by simp at hlen ⊢; omega)]
      simp [List.drop_drop]
      omega

lemma decode_samples_spec (r : ADXL345Results) (hs : r.samples = [])
    (hb : actualCount r.raw_samples ≤ r.total_count) :
    r.decode_samples =
      some ((decodedAll
          (blockSamples r.axes_map r.start2_time r.seq_to_time
            r.time_per_sample) r.raw_samples).map some) := by
  unfold ADXL345Results.decode_samples
  by_cases h : r.raw_samples = []
  · rw [if_pos h, hs, h, decodedAll_nil]
    rfl
  · rw [if_neg h]
    have hlen : (decodedAll (blockSamples r.axes_map r.start2_time
        r.seq_to_time r.time_per_sample) r.raw_samples).length ≤
        (List.replicate r.total_count
          (none : Option Accel_Measurement)).length := by
      rw [decodedAll_blockSamples_length, List.length_replicate]
      exact hb
    have h2 := fillLoop_some
      (blockSamples r.axes_map r.start2_time r.seq_to_time r.time_per_sample)
      r.raw_samples [] (List.replicate r.total_count none) hlen
    simp only [List.nil_append, List.length_nil, Nat.zero_add] at h2
    rw [h2]
    simp only [Option.map_some']
    congr 1
    rw [List.take_left']
    simp

/-- C10: whenever the buffered blocks hold at most `total_count` complete
samples (the nonnegative-drop precondition), `decode_samples` performs only
in-bounds placeholder writes (the out-of-bounds `none` branch is not taken),
and the returned list consists of exactly the actually-received samples —
its length is the sum over blocks of `len(payload) // 6` — with every
placeholder removed, so no `None` entry remains. -/
theorem c10_decode_in_bounds (r : ADXL345Results) (hs : r.samples = [])
    (hb : actualCount r.raw_samples ≤ r.total_count) :
    ∃ l : List Accel_Measurement,
      r.decode_samples = some (l.map some) ∧
      l.length = actualCount r.raw_samples ∧
      ∀ o ∈ l.map some, o.isSome = true := by
  refine ⟨decodedAll (blockSamples r.axes_map r.start2_time r.seq_to_time
      r.time_per_sample) r.raw_samples,
    decode_samples_spec r hs hb, decodedAll_blockSamples_length _ _ _ _ _, ?_⟩
  intro o ho
  obtain ⟨s, _, rfl⟩ := List.mem_map.mp ho
  rfl

/-- C10 witness: a one-block session set up by `setup_data`. -/
theorem c10_decode_in_bounds_witness :
    (ADXL345Results.init.setup_data defaultAxesMap
        [(0, List.replicate 48 0)] 1 0 0 0 1 2).samples = [] ∧
    actualCount (ADXL345Results.init.setup_data defaultAxesMap
        [(0, List.replicate 48 0)] 1 0 0 0 1 2).raw_samples ≤
      (ADXL345Results.init.setup_data defaultAxesMap
        [(0, List.replicate 48 0)] 1 0 0 0 1 2).total_count ∧
    ∃ l : List Accel_Measurement,
      (ADXL345Results.init.setup_data defaultAxesMap
        [(0, List.replicate 48 0)] 1 0 0 0 1 2).decode_samples =
          some (l.map some) ∧
      l.length = actualCount (ADXL345Results.init.setup_data defaultAxesMap
        [(0, List.replicate 48 0)] 1 0 0 0 1 2).raw_samples ∧
      ∀ o ∈ l.map some, o.isSome = true := by
  refine ⟨by rfl, by decide, c10_decode_in_bounds _ (by rfl) (by decide)⟩

/-!  ## LIS2DW regression-mode decoding (`LIS2DW._extract_samples`)  -/

/-- Constant `SAMPLES_PER_BLOCK = 8`. -/
def SAMPLES_PER_BLOCK : ℕ := 8

/-- Constant `BYTES_PER_SAMPLE = 6`. -/
def BYTES_PER_SAMPLE : ℕ := 6

/-- Python's `round(value, 6)` on exact rationals: round to the nearest
multiple of `1 / 10^6`.  CPython rounds ties to even while `round` here
rounds ties up; every concrete instance below is settled away from a tie. -/
def qround6 (x : ℚ) : ℚ := ((round (x * 1000000) : ℤ) : ℚ) / 1000000

/-- Relative sequence reconstruction in `_extract_samples`:
`seq_diff = (params['sequence'] - last_sequence) & 0xffff`;
`seq_diff -= (seq_diff & 0x8000) << 1`; `seq = last_sequence + seq_diff`.
On Python integers `& 0xffff` is the Euclidean `% 65536`, whose result is
nonnegative, so the inner `& 0x8000` acts on a plain natural. -/
def lisSeq (last_sequence : ℤ) (raw : ℕ) : ℤ :=
  let seq_diff : ℤ := ((raw : ℤ) - last_sequence) % 65536
  let seq_diff : ℤ := seq_diff - (((seq_diff.toNat &&& 0x8000) <<< 1 : ℕ) : ℤ)
  last_sequence + seq_diff

/-- Two's-complement merge from `_extract_samples`:
`((high << 8) | low) - ((high & 0x80) << 9)`. -/
def lisMerge (lo hi : ℕ) : ℤ :=
  (((hi <<< 8) ||| lo : ℕ) : ℤ) - (((hi &&& 0x80) <<< 9 : ℕ) : ℤ)

/-- The triple `raw_xyz = (rx, ry, rz)` decoded from the slice
`d[i*BYTES_PER_SAMPLE:(i+1)*BYTES_PER_SAMPLE]`, listed so that it can be
indexed by an axis position. -/
def lisRawXYZ (d : List ℕ) (i : ℕ) : List ℤ :=
  let xlow := d.getD (i * BYTES_PER_SAMPLE) 0
  let xhigh := d.getD (i * BYTES_PER_SAMPLE + 1) 0
  let ylow := d.getD (i * BYTES_PER_SAMPLE + 2) 0
  let yhigh := d.getD (i * BYTES_PER_SAMPLE + 3) 0
  let zlow := d.getD (i * BYTES_PER_SAMPLE + 4) 0
  let zhigh := d.getD (i * BYTES_PER_SAMPLE + 5) 0
  [lisMerge xlow xhigh, lisMerge ylow yhigh, lisMerge zlow zhigh]

/-- One decoded sample of `_extract_samples`: axis values scaled and
rounded to six decimals, and the regression timestamp
`ptime = round(time_base + (msg_cdiff + i) * inv_freq, 6)` with
`msg_cdiff = seq * SAMPLES_PER_BLOCK - chip_base`. -/
def lisSampleOf (axes_map : AxesMap) (time_base chip_base inv_freq : ℚ)
    (seq : ℤ) (d : List ℕ) (i : ℕ) : Accel_Measurement :=
  let raw_xyz := lisRawXYZ d i
  let msg_cdiff := (seq : ℚ) * (SAMPLES_PER_BLOCK : ℚ) - chip_base
  { time := qround6 (time_base + (msg_cdiff + (i : ℚ)) * inv_freq)
    accel_x :=
      qround6 (((raw_xyz.getD axes_map.x.1 0 : ℤ) : ℚ) * axes_map.x.2)
    accel_y :=
      qround6 (((raw_xyz.getD axes_map.y.1 0 : ℤ) : ℚ) * axes_map.y.2)
    accel_z :=
      qround6 (((raw_xyz.getD axes_map.z.1 0 : ℤ) : ℚ) * axes_map.z.2) }

/-- All samples decoded from one LIS2DW message: the inner loop
`for i in range(len(d) // BYTES_PER_SAMPLE)`. -/
def lisBlockSamples (axes_map : AxesMap)
    (time_base chip_base inv_freq : ℚ) (last_sequence : ℤ)
    (b : ℕ × List ℕ) : List Accel_Measurement :=
  (List.range (b.2.length / BYTES_PER_SAMPLE)).map
    (lisSampleOf axes_map time_base chip_base inv_freq
      (lisSeq last_sequence b.1) b.2)

lemma lisBlockSamples_length (am : AxesMap) (tb cb fr : ℚ) (ls : ℤ)
    (b : ℕ × List ℕ) :
    (lisBlockSamples am tb cb fr ls b).length = b.2.length / 6 := by
  simp [lisBlockSamples, BYTES_PER_SAMPLE]

/-- Method `LIS2DW._extract_samples` (its returned sample list; the
clock-sync side effect is external state).  Preallocates
`[None] * (len(raw_samples) * SAMPLES_PER_BLOCK)`, fills it in message
order, and truncates at the final count (`del samples[count:]`). -/
def lis_extract_samples (axes_map : AxesMap) (last_sequence : ℤ)
    (time_base chip_base inv_freq : ℚ)
    (raw_samples : List (ℕ × List ℕ)) :
    Option (List (Option Accel_Measurement)) :=
  (fillLoop
      (lisBlockSamples axes_map time_base chip_base inv_freq last_sequence)
      raw_samples
      (List.replicate (raw_samples.length * SAMPLES_PER_BLOCK) none, 0)).map
    (fun st => st.1.take st.2)

lemma decodedAll_lisBlockSamples_length (am : AxesMap) (tb cb fr : ℚ)
    (ls : ℤ) (bs : List (ℕ × List ℕ)) :
    (decodedAll (lisBlockSamples am tb cb fr ls) bs).length =
      actualCount bs := by
  simp only [decodedAll, List.length_flatten, actualCount, List.map_map]
  have : (List.length ∘ lisBlockSamples am tb cb fr ls) =
      fun p : ℕ × List ℕ => p.2.length / 6 :=
    funext (fun p => lisBlockSamples_length am tb cb fr ls p)
  rw [this]

lemma lis_extract_samples_spec (am : AxesMap) (ls : ℤ) (tb cb fr : ℚ)
    (raws : List (ℕ × List ℕ)) (hb : ∀ b ∈ raws, b.2.length / 6 ≤ 8) :
    lis_extract_samples am ls tb cb fr raws =
      some ((decodedAll (lisBlockSamples am tb cb fr ls) raws).map some) := by
  unfold lis_extract_samples
  have hlen : (decodedAll (lisBlockSamples am tb cb fr ls) raws).length ≤
      (List.replicate (raws.length * SAMPLES_PER_BLOCK)
        (none : Option Accel_Measurement)).length := by
    rw [decodedAll_lisBlockSamples_length, List.length_replicate]
    have h1 : actualCount raws ≤
        (raws.map (fun p => p.2.length / 6)).length • 8 :=
      List.sum_le_card_nsmul _ 8 (by
        intro x hx
        obtain ⟨b, hbmem, rfl⟩ := List.mem_map.mp hx
        exact hb b hbmem)
    simpa [actualCount, SAMPLES_PER_BLOCK, Nat.mul_comm] using h1
  have h2 := fillLoop_some (lisBlockSamples am tb cb fr ls) raws []
    (List.replicate (raws.length * SAMPLES_PER_BLOCK) none) hlen
  simp only [List.nil_append, List.length_nil, Nat.zero_add] at h2
  rw [h2]
  simp only [Option.map_some']
  congr 1
  rw [List.take_left']
  simp

lemma qround6_mul_den (x : ℚ) : (qround6 x * 1000000).den = 1 := by
  have h : qround6 x * 1000000 = ((round (x * 1000000) : ℤ) : ℚ) := by
    unfold qround6
    field_simp
  rw [h]
  exact Rat.den_intCast _

/-- C7: in regression mode every decoded sample carries timestamp
`time_base + (tick_index - chip_base) * inv_freq` with tick index
`seq * SAMPLES_PER_BLOCK + i`, and the timestamp and the three scaled
acceleration values are each rounded to exactly six decimal places
(multiplying any of them by `10^6` yields an integer); the extraction
publishes exactly the per-message decoded samples in order. -/
theorem c7_regression_timestamps :
    (∀ (am : AxesMap) (ls : ℤ) (tb cb fr : ℚ) (raws : List (ℕ × List ℕ)),
        (∀ b ∈ raws, b.2.length / 6 ≤ 8) →
        lis_extract_samples am ls tb cb fr raws =
          some ((decodedAll (lisBlockSamples am tb cb fr ls) raws).map
            some)) ∧
    (∀ (am : AxesMap) (tb cb fr : ℚ) (seq : ℤ) (d : List ℕ) (i : ℕ),
        (lisSampleOf am tb cb fr seq d i).time =
          qround6 (tb +
            (((seq * (SAMPLES_PER_BLOCK : ℤ) + (i : ℤ) : ℤ) : ℚ) - cb) *
              fr)) ∧
    (∀ (am : AxesMap) (tb cb fr : ℚ) (seq : ℤ) (d : List ℕ) (i : ℕ),
        ((lisSampleOf am tb cb fr seq d i).time * 1000000).den = 1 ∧
        ((lisSampleOf am tb cb fr seq d i).accel_x * 1000000).den = 1 ∧
        ((lisSampleOf am tb cb fr seq d i).accel_y * 1000000).den = 1 ∧
        ((lisSampleOf am tb cb fr seq d i).accel_z * 1000000).den = 1) := by
  refine ⟨lis_extract_samples_spec, ?_, ?_⟩
  · intro am tb cb fr seq d i
    have h : (lisSampleOf am tb cb fr seq d i).time =
        qround6 (tb + (((seq : ℚ) * (SAMPLES_PER_BLOCK : ℕ) - cb) +
          (i : ℚ)) * fr) := rfl
    rw [h]
    congr 1
    simp only [SAMPLES_PER_BLOCK]
    push_cast
    ring
  · intro am tb cb fr seq d i
    exact ⟨qround6_mul_den _, qround6_mul_den _, qround6_mul_den _,
      qround6_mul_den _⟩

/-- C7 witness: a single message of two complete samples plus one trailing
byte, decoded with unit inverse frequency. -/
theorem c7_regression_timestamps_witness :
    (∀ b ∈ [((3 : ℕ), List.replicate 13 (0 : ℕ))], b.2.length / 6 ≤ 8) ∧
    lis_extract_samples defaultAxesMap 0 0 0 1
        [(3, List.replicate 13 0)] =
      some ((decodedAll (lisBlockSamples defaultAxesMap 0 0 1 0)
        [(3, List.replicate 13 0)]).map some) := by
  exact ⟨by decide, c7_regression_timestamps.1 defaultAxesMap 0 0 0 1
    [(3, List.replicate 13 0)] (by decide)⟩

/-- C9: decoding a raw block whose payload length is not a multiple of six
processes exactly `len // 6` complete six-byte groups and silently ignores
the trailing partial group, in both the ADXL345 interval decoder and the
LIS2DW regression decoder; every `sdata` read the interval decoder issues
is in bounds, and the LIS2DW extraction returns a value rather than an
error on such malformed trailing data. -/
theorem c9_trailing_bytes :
    (∀ (am : AxesMap) (s2 stt tps : ℚ) (b : ℕ × List ℕ),
        (blockSamples am s2 stt tps b).length = b.2.length / 6) ∧
    (∀ (d : List ℕ) (i pos : ℕ), i < d.length / 6 → pos ≤ 2 →
        i * 3 + pos < (sdataOf d).length) ∧
    (∀ (am : AxesMap) (tb cb fr : ℚ) (ls : ℤ) (b : ℕ × List ℕ),
        (lisBlockSamples am tb cb fr ls b).length = b.2.length / 6) ∧
    (∀ (am : AxesMap) (ls : ℤ) (tb cb fr : ℚ)
        (raws : List (ℕ × List ℕ)),
        (∀ b ∈ raws, b.2.length / 6 ≤ 8) →
        (lis_extract_samples am ls tb cb fr raws).isSome = true) := by
  refine ⟨blockSamples_length, ?_, lisBlockSamples_length, ?_⟩
  · intro d i pos h1 h2
    rw [sdataOf_length]
    omega
  · intro am ls tb cb fr raws hb
    rw [lis_extract_samples_spec am ls tb cb fr raws hb]
    rfl

/-- C9 witness: a 13-byte payload (two complete samples, one dangling
byte). -/
theorem c9_trailing_bytes_witness :
    (blockSamples defaultAxesMap 0 0 0
        ((0 : ℕ), List.replicate 13 (0 : ℕ))).length = 13 / 6 ∧
    1 * 3 + 2 < (sdataOf (List.replicate 13 0)).length ∧
    (lis_extract_samples defaultAxesMap 0 0 0 1
        [(3, List.replicate 13 0)]).isSome = true := by
  refine ⟨?_, c9_trailing_bytes.2.1 (List.replicate 13 0) 1 2
      (by decide) (by decide),
    c9_trailing_bytes.2.2.2 defaultAxesMap 0 0 0 1
      [(3, List.replicate 13 0)] (by decide)⟩
  have h := c9_trailing_bytes.1 defaultAxesMap 0 0 0
    (0, List.replicate 13 0)
  simpa using h

/-!  ## C5: interval-mode timestamps  -/

lemma sampleOf_time (am : AxesMap) (s2 stt tps : ℚ) (seq : ℕ)
    (d : List ℕ) (i : ℕ) :
    (sampleOf am s2 stt tps seq d i).time =
      s2 + (seq : ℚ) * stt + (i : ℚ) * tps := rfl

lemma decodedAll_append (f : ℕ × List ℕ → List Accel_Measurement)
    (a b : List (ℕ × List ℕ)) :
    decodedAll f (a ++ b) = decodedAll f a ++ decodedAll f b := by
  simp [decodedAll]

lemma actualCount_append (a b : List (ℕ × List ℕ)) :
    actualCount (a ++ b) = actualCount a + actualCount b := by
  simp [actualCount]

lemma actualCount_full_blocks (s : ℕ) (dat : ℕ → List ℕ)
    (hdat : ∀ j, (dat j).length = 48) :
    ∀ n : ℕ,
      actualCount ((List.range n).map (fun j => (s + j, dat j))) = 8 * n := by
  intro n
  induction n with
  | zero => simp [actualCount]
  | succ m ih =>
      rw [List.range_succ, List.map_append, actualCount_append, ih]
      simp [actualCount, hdat]
      ring

lemma consecutive_full_times (am : AxesMap) (s2 tps : ℚ) (s : ℕ)
    (dat : ℕ → List ℕ) (hdat : ∀ j, (dat j).length = 48) :
    ∀ n : ℕ,
      ((decodedAll (blockSamples am s2 (tps * 8) tps)
          ((List.range n).map (fun j => (s + j, dat j)))).map
        Accel_Measurement.time) =
      (List.range (8 * n)).map
        (fun k : ℕ => s2 + (s : ℚ) * (tps * 8) + (k : ℚ) * tps) := by
  intro n
  induction n with
  | zero => simp [decodedAll]
  | succ m ih =>
      rw [List.range_succ, List.map_append, decodedAll_append,
        List.map_append, ih]
      have hmul : 8 * (m + 1) = 8 * m + 8 := by ring
      rw [hmul, List.range_add, List.map_append]
      congr 1
      simp only [List.map_cons, List.map_nil, decodedAll, List.flatten,
        List.append_nil, blockSamples, hdat, List.map_map]
      refine List.map_congr_left ?_
      intro i hi
      simp only [Function.comp_apply, sampleOf_time]
      push_cast
      ring

lemma pairwise_ramp (c tps : ℚ) (htps : 0 < tps) (m : ℕ) :
    ((List.range m).map
      (fun k : ℕ => c + (k : ℚ) * tps)).Pairwise (· < ·) := by
  refine List.Pairwise.map _ ?_ (List.pairwise_lt_range m)
  intro a b hab
  have hq : (a : ℚ) < (b : ℚ) := by exact_mod_cast hab
  have h2 := mul_lt_mul_of_pos_right hq htps
  linarith

lemma setup_data_fields (r : ADXL345Results) (am : AxesMap)
    (raws : List (ℕ × List ℕ)) (endSeq ov : ℕ) (s1 s2 e1 e2 : ℚ)
    (hne : raws ≠ []) (hs : endSeq ≠ 0) :
    (r.setup_data am raws endSeq ov s1 s2 e1 e2).samples = r.samples ∧
    (r.setup_data am raws endSeq ov s1 s2 e1 e2).raw_samples = raws ∧
    (r.setup_data am raws endSeq ov s1 s2 e1 e2).axes_map = am ∧
    (r.setup_data am raws endSeq ov s1 s2 e1 e2).start2_time = s2 ∧
    (r.setup_data am raws endSeq ov s1 s2 e1 e2).total_count =
      (endSeq - 1) * 8 + (lastData raws).length / 6 ∧
    (r.setup_data am raws endSeq ov s1 s2 e1 e2).time_per_sample =
      (e2 - s2) /
        (((endSeq - 1) * 8 + (lastData raws).length / 6 : ℕ) : ℚ) ∧
    (r.setup_data am raws endSeq ov s1 s2 e1 e2).seq_to_time =
      (e2 - s2) /
        (((endSeq - 1) * 8 + (lastData raws).length / 6 : ℕ) : ℚ) * 8 := by
  unfold ADXL345Results.setup_data
  rw [if_neg (by simp [hne, hs])]
  exact ⟨rfl, rfl, rfl, rfl, rfl, rfl, rfl⟩

/-- C5: in interval mode the timestamp of decoded sample `i` of the block
with extended sequence `seq` is
`start2 + seq * 8 * time_per_sample + i * time_per_sample`, where
`time_per_sample = (end2 - start2) / total_count` and
`seq_to_time = time_per_sample * 8` are computed by `setup_data` after
session completion; for consecutive full blocks with positive total time
the decoded timestamps are strictly increasing. -/
theorem c5_interval_timestamps :
    (∀ (am : AxesMap) (s2 tps : ℚ) (seq : ℕ) (d : List ℕ) (i : ℕ),
        (sampleOf am s2 (tps * 8) tps seq d i).time =
          s2 + (seq : ℚ) * 8 * tps + (i : ℚ) * tps) ∧
    (∀ (r : ADXL345Results) (am : AxesMap) (raws : List (ℕ × List ℕ))
        (endSeq ov : ℕ) (s1 s2 e1 e2 : ℚ), raws ≠ [] → endSeq ≠ 0 →
        (r.setup_data am raws endSeq ov s1 s2 e1 e2).time_per_sample =
          (e2 - s2) /
            (((r.setup_data am raws endSeq ov s1 s2 e1 e2).total_count :
              ℕ) : ℚ) ∧
        (r.setup_data am raws endSeq ov s1 s2 e1 e2).seq_to_time =
          (r.setup_data am raws endSeq ov s1 s2 e1 e2).time_per_sample *
            8) ∧
    (∀ (am : AxesMap) (s n ov : ℕ) (dat : ℕ → List ℕ) (s1 s2 e1 e2 : ℚ),
        n ≠ 0 → (∀ j, (dat j).length = 48) → s2 < e2 →
        ∃ l : List Accel_Measurement,
          (ADXL345Results.init.setup_data am
              ((List.range n).map (fun j => (s + j, dat j))) (s + n) ov
              s1 s2 e1 e2).decode_samples = some (l.map some) ∧
          (l.map Accel_Measurement.time).Pairwise (· < ·)) := by
  refine ⟨?_, ?_, ?_⟩
  · intro am s2 tps seq d i
    rw [sampleOf_time]
    ring
  · intro r am raws endSeq ov s1 s2 e1 e2 hne hs
    obtain ⟨-, -, -, -, htot, htps, hstt⟩ :=
      setup_data_fields r am raws endSeq ov s1 s2 e1 e2 hne hs
    refine ⟨by rw [htps, htot], by rw [hstt, htps]⟩
  · intro am s n ov dat s1 s2 e1 e2 hn hdat he
    obtain ⟨m, rfl⟩ := Nat.exists_eq_succ_of_ne_zero hn
    have hblocks_ne :
        (List.range (m + 1)).map (fun j => (s + j, dat j)) ≠ [] := by
      simp
    have hseq_ne : s + (m + 1) ≠ 0 := by omega
    obtain ⟨hsamp, hraw, ham, hs2, htot, htps, hstt⟩ :=
      setup_data_fields ADXL345Results.init am
        ((List.range (m + 1)).map (fun j => (s + j, dat j)))
        (s + (m + 1)) ov s1 s2 e1 e2 hblocks_ne hseq_ne
    have hlast :
        lastData ((List.range (m + 1)).map (fun j => (s + j, dat j))) =
          dat m := by
      rw [List.range_succ, List.map_append]
      simp [lastData, List.getLast?_concat]
    have htotval :
        (s + (m + 1) - 1) * 8 +
          (lastData ((List.range (m + 1)).map
            (fun j => (s + j, dat j)))).length / 6 = (s + m) * 8 + 8 := by
      rw [hlast, hdat m]
      omega
    have hact :
        actualCount ((List.range (m + 1)).map (fun j => (s + j, dat j))) =
          8 * (m + 1) := actualCount_full_blocks s dat hdat (m + 1)
    set r := ADXL345Results.init.setup_data am
      ((List.range (m + 1)).map (fun j => (s + j, dat j)))
      (s + (m + 1)) ov s1 s2 e1 e2 with hr
    have hbound : actualCount r.raw_samples ≤ r.total_count := by
      rw [hraw, htot, htotval, hact]
      omega
    have hdec := decode_samples_spec r (by rw [hsamp]; rfl) hbound
    set tps : ℚ :=
      (e2 - s2) /
        (((s + (m + 1) - 1) * 8 +
          (lastData ((List.range (m + 1)).map
            (fun j => (s + j, dat j)))).length / 6 : ℕ) : ℚ) with htpsdef
    have htps_pos : 0 < tps := by
      rw [htpsdef, htotval]
      refine div_pos (by linarith) ?_
      have : (0 : ℕ) < (s + m) * 8 + 8 := by omega
      exact_mod_cast this
    refine ⟨decodedAll (blockSamples am s2 (tps * 8) tps)
        ((List.range (m + 1)).map (fun j => (s + j, dat j))), ?_, ?_⟩
    · rw [hdec]
      congr 2
      rw [ham, hs2, hraw, hstt, htps]
    · rw [consecutive_full_times am s2 tps s dat hdat (m + 1)]
      exact pairwise_ramp (s2 + (s : ℚ) * (tps * 8)) tps htps_pos
        (8 * (m + 1))

/-- C5 witness: two consecutive full blocks over a unit time interval. -/
theorem c5_interval_timestamps_witness :
    ((2 : ℕ) ≠ 0) ∧ ((0 : ℚ) < 1) ∧
    ∃ l : List Accel_Measurement,
      (ADXL345Results.init.setup_data defaultAxesMap
          ((List.range 2).map
            (fun j => (0 + j, List.replicate 48 (0 : ℕ)))) (0 + 2) 0
          0 0 0 1).decode_samples = some (l.map some) ∧
      (l.map Accel_Measurement.time).Pairwise (· < ·) := by
  exact ⟨by norm_num, by norm_num,
    c5_interval_timestamps.2.2 defaultAxesMap 0 2 0
      (fun _ => List.replicate 48 0) 0 0 0 1 (by norm_num)
      (fun j => by simp) (by norm_num)⟩

/-!  ## Measurement session state machine (`class ADXL345`)  -/

/-- The session-relevant mutable state of an `ADXL345` object.  Register
programming and firmware commands are external I/O; their time arguments
appear as explicit parameters of the transition functions. -/
structure ADXL345State where
  query_rate : ℕ
  raw_samples : List (ℕ × List ℕ)
  last_sequence : ℕ
  samples_start1 : ℚ
  samples_start2 : ℚ
  last_tx_time : ℚ
  data_rate : ℕ
  axes_map : AxesMap
deriving DecidableEq

/-- Method `ADXL345.is_measuring`: `query_rate > 0`. -/
def ADXL345State.is_measuring (s : ADXL345State) : Bool :=
  decide (s.query_rate > 0)

/-- Fresh state as set up by `ADXL345.__init__` (before any measurement);
`data_rate` and `axes_map` come from the configuration. -/
def ADXL345State.initial (data_rate : ℕ) (axes_map : AxesMap) :
    ADXL345State :=
  { query_rate := 0
    raw_samples := []
    last_sequence := 0
    samples_start1 := 0
    samples_start2 := 0
    last_tx_time := 0
    data_rate := data_rate
    axes_map := axes_map }

/-- Callback `ADXL345._handle_adxl345_data`: extend the 16-bit sequence,
then append the block unless the buffer already holds 300000 blocks
(`if len(raw_samples) >= 300000: return`). -/
def handle_adxl345_data (s : ADXL345State) (sequence16 : ℕ)
    (data : List ℕ) : ADXL345State :=
  let sequence := extendSeq s.last_sequence sequence16
  let s := { s with last_sequence := sequence }
  if 300000 ≤ s.raw_samples.length then s
  else { s with raw_samples := s.raw_samples ++ [(sequence, data)] }

/-- Method `ADXL345.start_measurements`.  Returns immediately when already
measuring; otherwise resets the buffer, sequence state and anchors and
records the requested rate (`rate = rate or self.data_rate`; `print_time`
is the toolhead's last move time). -/
def start_measurements (s : ADXL345State) (rate : Option ℕ)
    (print_time : ℚ) : ADXL345State :=
  if s.is_measuring then s
  else
    { s with
      raw_samples := []
      last_sequence := 0
      samples_start1 := print_time
      samples_start2 := print_time
      last_tx_time := print_time
      query_rate := rate.getD s.data_rate }

/-- Response of the firmware `query_adxl345_end` command, already passed
through `_clock_to_print_time`. -/
structure EndParams where
  end1_time : ℚ
  end2_time : ℚ
  sequence : ℕ
  limit_count : ℕ
deriving DecidableEq

/-- Method `ADXL345.finish_measurements`.  When idle it returns a fresh
empty `ADXL345Results()` without touching any state; otherwise it halts
the query, clears the buffer and builds the results via `setup_data`,
converting the firmware's final 16-bit sequence with `_convert_sequence`
(one `extendSeq` step that does not update `last_sequence`). -/
def finish_measurements (s : ADXL345State) (print_time : ℚ)
    (params : EndParams) : ADXL345State × ADXL345Results :=
  if ¬ s.is_measuring then (s, ADXL345Results.init)
  else
    let s' := { s with
      last_tx_time := print_time
      query_rate := 0
      raw_samples := [] }
    let end_sequence := extendSeq s.last_sequence params.sequence
    let res := ADXL345Results.init.setup_data s.axes_map s.raw_samples
      end_sequence params.limit_count s.samples_start1 s.samples_start2
      params.end1_time params.end2_time
    (s', res)

/-- C3: the raw-block buffer never exceeds 300000 blocks: a data callback
arriving when the buffer holds at least 300000 blocks leaves the buffer
unchanged (the block is discarded silently, no error raised), and any
sequence of callbacks starting from a buffer within the cap stays within
the cap. -/
theorem c3_buffer_cap :
    (∀ (s : ADXL345State) (q : ℕ) (d : List ℕ),
        300000 ≤ s.raw_samples.length →
        (handle_adxl345_data s q d).raw_samples = s.raw_samples) ∧
    (∀ (msgs : List (ℕ × List ℕ)) (s : ADXL345State),
        s.raw_samples.length ≤ 300000 →
        ((msgs.foldl (fun t m => handle_adxl345_data t m.1 m.2)
            s).raw_samples).length ≤ 300000) := by
  constructor
  · intro s q d hcap
    unfold handle_adxl345_data
    rw [if_pos hcap]
  · intro msgs
    induction msgs with
    | nil => intro s h; exact h
    | cons m ms ih =>
        intro s h
        rw [List.foldl_cons]
        refine ih _ ?_
        unfold handle_adxl345_data
        by_cases hcap : 300000 ≤ s.raw_samples.length
        · rw [if_pos hcap]
          exact h
        · rw [if_neg hcap]
          simp only [List.length_append, List.length_cons,
            List.length_nil]
          omega

/-- C3 witness: a full buffer rejects a new block; a fresh session obeys
the cap after a burst of callbacks. -/
theorem c3_buffer_cap_witness :
    (300000 ≤ (List.replicate 300000 ((0 : ℕ), ([] : List ℕ))).length ∧
      (handle_adxl345_data
          { ADXL345State.initial 3200 defaultAxesMap with
            raw_samples := List.replicate 300000 (0, []) } 7
          [1, 2, 3]).raw_samples = List.replicate 300000 (0, [])) ∧
    ((ADXL345State.initial 3200 defaultAxesMap).raw_samples.length ≤
        300000 ∧
      ((([(1, [1]), (2, [2])] : List (ℕ × List ℕ)).foldl
          (fun t m => handle_adxl345_data t m.1 m.2)
          (ADXL345State.initial 3200
            defaultAxesMap)).raw_samples).length ≤ 300000) := by
  have hproj : ({ ADXL345State.initial 3200 defaultAxesMap with
      raw_samples := List.replicate 300000 ((0 : ℕ), ([] : List ℕ)) } :
        ADXL345State).raw_samples = List.replicate 300000 (0, []) := rfl
  have hcap : 300000 ≤ (List.replicate 300000
      ((0 : ℕ), ([] : List ℕ))).length := by
    rw [List.length_replicate]
  constructor
  · refine ⟨hcap, ?_⟩
    have h := c3_buffer_cap.1 _ 7 [1, 2, 3] (by rw [hproj]; exact hcap)
    rw [hproj] at h
    exact h
  · refine ⟨by simp [ADXL345State.initial], ?_⟩
    exact c3_buffer_cap.2 [(1, [1]), (2, [2])]
      (ADXL345State.initial 3200 defaultAxesMap)
      (by simp [ADXL345State.initial])

/-- C8: `start_measurements` while already measuring returns immediately
with every piece of session state (buffer, sequence state, anchors, rate)
unchanged; `finish_measurements` while idle performs no firmware
interaction and yields the fresh empty result: no samples, zero drops,
zero overflows, zero timing statistics. -/
theorem c8_start_finish_idle :
    (∀ (s : ADXL345State) (rate : Option ℕ) (pt : ℚ),
        s.is_measuring = true → start_measurements s rate pt = s) ∧
    (∀ (s : ADXL345State) (pt : ℚ) (params : EndParams),
        s.is_measuring = false →
        finish_measurements s pt params = (s, ADXL345Results.init)) ∧
    ADXL345Results.init.samples = [] ∧ ADXL345Results.init.drops = 0 ∧
    ADXL345Results.init.overflows = 0 ∧
    ADXL345Results.init.time_per_sample = 0 ∧
    ADXL345Results.init.start_range = 0 ∧
    ADXL345Results.init.end_range = 0 := by
  refine ⟨?_, ?_, rfl, rfl, rfl, rfl, rfl, rfl⟩
  · intro s rate pt h
    simp [start_measurements, h]
  · intro s pt params h
    simp [finish_measurements, h]

/-- C8 witness: a measuring state absorbs `start`; the initial idle state
answers `finish` with the empty result. -/
theorem c8_start_finish_idle_witness :
    (({ ADXL345State.initial 3200 defaultAxesMap with
        query_rate := 1600 } : ADXL345State).is_measuring = true ∧
      start_measurements
          { ADXL345State.initial 3200 defaultAxesMap with
            query_rate := 1600 } (some 800) 5 =
        { ADXL345State.initial 3200 defaultAxesMap with
          query_rate := 1600 }) ∧
    ((ADXL345State.initial 3200 defaultAxesMap).is_measuring = false ∧
      finish_measurements (ADXL345State.initial 3200 defaultAxesMap) 5
          ⟨6, 7, 12, 0⟩ =
        (ADXL345State.initial 3200 defaultAxesMap,
          ADXL345Results.init)) := by
  refine ⟨⟨rfl, ?_⟩, ⟨rfl, ?_⟩⟩
  · exact c8_start_finish_idle.1 _ (some 800) 5 rfl
  · exact c8_start_finish_idle.2.1 _ 5 ⟨6, 7, 12, 0⟩ rfl

/-!  ## Calibration engine (`ADXL345EndstopWrapper.calibrate` and
`ADXL345EndstopWrapper._offset_axes`)  -/

/-- Default retry budget: `def calibrate(self, gcmd=None, retries=3)`. -/
def calibrateDefaultRetries : ℕ := 3

/-- Per-axis sample mean `sum([...]) / len(samples)`. -/
def meanBy (f : Accel_Measurement → ℚ)
    (samples : List Accel_Measurement) : ℚ :=
  (samples.map f).sum / (samples.length : ℚ)

/-- Per-axis peak deviation `max([abs(f(s) - mean) for s in samples])`;
for a nonempty list the fold from `0` over absolute values equals
Python's `max`. -/
def peakDev (f : Accel_Measurement → ℚ) (mean : ℚ)
    (samples : List Accel_Measurement) : ℚ :=
  (samples.map (fun s => |f s - mean|)).foldl max 0

/-- The gravity-magnitude test
`abs(meas_freefall_accel - FREEFALL_ACCEL) > FREEFALL_ACCEL * 0.5` with
`meas_freefall_accel = sqrt(x_ofs**2 + y_ofs**2 + z_ofs**2)`, expressed
on the squared magnitude: a nonnegative root lies outside the band
`[0.5 g, 1.5 g]` exactly when its square lies outside
`[(0.5 g)^2, (1.5 g)^2]`. -/
def magnitudeOutOfBand (sq : ℚ) : Bool :=
  decide ((FREEFALL_ACCEL + FREEFALL_ACCEL * 0.5) ^ 2 < sq) ||
    decide (sq < (FREEFALL_ACCEL - FREEFALL_ACCEL * 0.5) ^ 2)

/-- Offset register value
`0xFF & int(round(-ofs / scale * (SCALE / OFS_SCALE)))`; on a Python
integer of either sign `0xFF &` is the arithmetic remainder `% 256`. -/
def ofsRegVal (ofs scale : ℚ) : ℤ :=
  (round (-ofs / scale * (SCALE / OFS_SCALE))) % 256

/-- Register tuple `self.ofs_regs = (REG_OFSX, REG_OFSY, REG_OFSZ)`. -/
def ofs_regs : List ℕ := [REG_OFSX, REG_OFSY, REG_OFSZ]

/-- The offset-register writes of the success path of `_offset_axes`:
`for ofs, axis in zip((x_ofs, y_ofs, z_ofs), (0, 1, 2))`, write register
`ofs_regs[axes_map[axis][0]]` with `ofsRegVal ofs axes_map[axis][1]`. -/
def writesFor (am : AxesMap) (x_ofs y_ofs z_ofs : ℚ) : List (ℕ × ℤ) :=
  (List.zip [x_ofs, y_ofs, z_ofs] am.entries).map
    (fun p => (ofs_regs.getD p.2.1 0, ofsRegVal p.1 p.2.2))

/-- Outcome of one `_offset_axes` measurement evaluation. -/
inductive CalibResult where
  | magError
  | noiseError
  | success (writes : List (ℕ × ℤ))
deriving DecidableEq

/-- Whether an evaluation takes the success path. -/
def CalibResult.isSuccess : CalibResult → Bool
  | .success _ => true
  | _ => false

/-- The measurement evaluation of `_offset_axes` on one attempt's decoded
samples: per-axis means, gravity-magnitude check, noise check against
`tap_thresh`, then the three offset-register writes. -/
def offset_axes_eval (am : AxesMap) (tap_thresh : ℚ)
    (samples : List Accel_Measurement) : CalibResult :=
  let x_ofs := meanBy Accel_Measurement.accel_x samples
  let y_ofs := meanBy Accel_Measurement.accel_y samples
  let z_ofs := meanBy Accel_Measurement.accel_z samples
  if magnitudeOutOfBand (x_ofs ^ 2 + y_ofs ^ 2 + z_ofs ^ 2) then
    .magError
  else
    let x_m := peakDev Accel_Measurement.accel_x x_ofs samples
    let y_m := peakDev Accel_Measurement.accel_y y_ofs samples
    let z_m := peakDev Accel_Measurement.accel_z z_ofs samples
    let accel_noise := max (max x_m y_m) z_m
    if accel_noise > tap_thresh then .noiseError
    else .success (writesFor am x_ofs y_ofs z_ofs)

/-- Outcome of a whole bounded-retry calibration: the `calibrated` flag,
the number of measurement attempts consumed, and the register writes of
the successful attempt (empty on abort). -/
structure CalibOutcome where
  calibrated : Bool
  attempts : ℕ
  writes : List (ℕ × ℤ)
deriving DecidableEq

/-- The retry loop of `calibrate` / `_offset_axes`: attempt `k` evaluates
the samples `attempt k`; an out-of-band result re-enters `calibrate` with
`retries - 1` while `retries > 0` and otherwise aborts with a non-fatal
warning, leaving the probe uncalibrated; the success path writes the
offsets and sets `calibrated`.  Recursion is structural on the remaining
budget, so the two zero/successor cases share the success branch. -/
def calibrateRun (am : AxesMap) (tap_thresh : ℚ)
    (attempt : ℕ → List Accel_Measurement) : ℕ → ℕ → CalibOutcome
  | k, 0 =>
      match offset_axes_eval am tap_thresh (attempt k) with
      | .success ws => ⟨true, k + 1, ws⟩
      | _ => ⟨false, k + 1, []⟩
  | k, r + 1 =>
      match offset_axes_eval am tap_thresh (attempt k) with
      | .success ws => ⟨true, k + 1, ws⟩
      | _ => calibrateRun am tap_thresh attempt (k + 1) r

lemma calibrateRun_success_first (am : AxesMap) (tt : ℚ)
    (attempt : ℕ → List Accel_Measurement) (r : ℕ) (ws : List (ℕ × ℤ))
    (h : offset_axes_eval am tt (attempt 0) = .success ws) :
    calibrateRun am tt attempt 0 r = ⟨true, 1, ws⟩ := by
  cases r <;> simp [calibrateRun, h]

lemma calibrateRun_persistent_bad (am : AxesMap) (tt : ℚ)
    (attempt : ℕ → List Accel_Measurement)
    (hbad : ∀ k, (offset_axes_eval am tt (attempt k)).isSuccess = false) :
    ∀ (r k : ℕ), calibrateRun am tt attempt k r = ⟨false, k + r + 1, []⟩ := by
  intro r
  induction r with
  | zero =>
      intro k
      have h := hbad k
      unfold calibrateRun
      cases he : offset_axes_eval am tt (attempt k) with
      | success ws => rw [he] at h; simp [CalibResult.isSuccess] at h
      | magError => rfl
      | noiseError => rfl
  | succ r ih =>
      intro k
      have h := hbad k
      unfold calibrateRun
      cases he : offset_axes_eval am tt (attempt k) with
      | success ws => rw [he] at h; simp [CalibResult.isSuccess] at h
      | magError =>
          rw [ih (k + 1)]
          have harith : k + 1 + r + 1 = k + (r + 1) + 1 := by omega
          rw [harith]
      | noiseError =>
          rw [ih (k + 1)]
          have harith : k + 1 + r + 1 = k + (r + 1) + 1 := by omega
          rw [harith]

/-- C4: calibration retries are bounded with a default budget of 3: an
attempt whose mean-vector magnitude is out of the ±50 % gravity band or
whose per-axis peak deviation exceeds the configured tap threshold retries
with the budget decremented; once the budget is exhausted the run aborts
non-fatally with the probe left uncalibrated.  Persistently
out-of-tolerance input aborts after exactly the configured budget of
retries (budget + 1 measurement attempts); in-tolerance input succeeds,
calibrated, within one attempt. -/
theorem c4_calibration_retries :
    calibrateDefaultRetries = 3 ∧
    (∀ (am : AxesMap) (tt : ℚ) (attempt : ℕ → List Accel_Measurement)
        (r : ℕ),
        (∀ k, (offset_axes_eval am tt (attempt k)).isSuccess = false) →
        calibrateRun am tt attempt 0 r = ⟨false, r + 1, []⟩) ∧
    (∀ (am : AxesMap) (tt : ℚ) (attempt : ℕ → List Accel_Measurement)
        (r : ℕ) (ws : List (ℕ × ℤ)),
        offset_axes_eval am tt (attempt 0) = .success ws →
        calibrateRun am tt attempt 0 r = ⟨true, 1, ws⟩) := by
  refine ⟨rfl, ?_, calibrateRun_success_first⟩
  intro am tt attempt r hbad
  have h := calibrateRun_persistent_bad am tt attempt hbad r 0
  simpa using h

/-- C4 witness: empty decodes fail the gravity check forever and exhaust
the default budget; a single in-tolerance sample calibrates in one
attempt. -/
theorem c4_calibration_retries_witness :
    (∀ k : ℕ, (offset_axes_eval defaultAxesMap 5000
        ((fun _ : ℕ => ([] : List Accel_Measurement)) k)).isSuccess =
          false) ∧
    calibrateRun defaultAxesMap 5000
        (fun _ : ℕ => ([] : List Accel_Measurement)) 0 3 =
      ⟨false, 3 + 1, []⟩ ∧
    offset_axes_eval defaultAxesMap 5000
        ((fun _ : ℕ => [(⟨0, 4 * SCALE, 0, FREEFALL_ACCEL⟩ :
          Accel_Measurement)]) 0) =
      .success [(REG_OFSX, 255), (REG_OFSY, 0), (REG_OFSZ, 192)] ∧
    calibrateRun defaultAxesMap 5000
        (fun _ : ℕ => [(⟨0, 4 * SCALE, 0, FREEFALL_ACCEL⟩ :
          Accel_Measurement)]) 0 3 =
      ⟨true, 1, [(REG_OFSX, 255), (REG_OFSY, 0), (REG_OFSZ, 192)]⟩ := by
  have hbad : ∀ k : ℕ, (offset_axes_eval defaultAxesMap 5000
      ((fun _ : ℕ => ([] : List Accel_Measurement)) k)).isSuccess =
        false := by
    intro k
    show (offset_axes_eval defaultAxesMap 5000 []).isSuccess = false
    rw [offset_axes_eval]
    norm_num [meanBy, magnitudeOutOfBand, FREEFALL_ACCEL,
      CalibResult.isSuccess]
  have hgood : offset_axes_eval defaultAxesMap 5000
      ((fun _ : ℕ => [(⟨0, 4 * SCALE, 0, FREEFALL_ACCEL⟩ :
        Accel_Measurement)]) 0) =
      .success [(REG_OFSX, 255), (REG_OFSY, 0), (REG_OFSZ, 192)] := by
    show offset_axes_eval defaultAxesMap 5000
      [⟨0, 4 * SCALE, 0, FREEFALL_ACCEL⟩] =
      .success [(REG_OFSX, 255), (REG_OFSY, 0), (REG_OFSZ, 192)]
    rw [offset_axes_eval]
    norm_num [meanBy, peakDev, magnitudeOutOfBand, writesFor, ofsRegVal,
      AxesMap.entries, ofs_regs, defaultAxesMap, SCALE, OFS_SCALE,
      FREEFALL_ACCEL, round_eq, REG_OFSX, REG_OFSY, REG_OFSZ]
  exact ⟨hbad, c4_calibration_retries.2.1 defaultAxesMap 5000 _ 3 hbad,
    hgood, c4_calibration_retries.2.2 defaultAxesMap 5000 _ 3 _ hgood⟩

/-- C6 counterexample: on a successful calibration with a mean of
`4 * SCALE` on the x axis, the code writes `0xFF & round(...) = 255` to
the x offset register while the unmasked `round(-mean / axisScale *
(SCALE / OFS_SCALE))` is `-1`: the written value is the masked byte, not
the claimed signed round. -/
theorem c6_offset_value_counterexample :
    offset_axes_eval defaultAxesMap 5000
        [⟨0, 4 * SCALE, 0, FREEFALL_ACCEL⟩] =
      .success [(REG_OFSX, 255), (REG_OFSY, 0), (REG_OFSZ, 192)] ∧
    round (-(meanBy Accel_Measurement.accel_x
          [⟨0, 4 * SCALE, 0, FREEFALL_ACCEL⟩]) /
        defaultAxesMap.x.2 * (SCALE / OFS_SCALE)) = (-1 : ℤ) ∧
    ((255 : ℤ) ≠ -1) := by
  refine ⟨?_, ?_, by decide⟩
  · rw [offset_axes_eval]
    norm_num [meanBy, peakDev, magnitudeOutOfBand, writesFor, ofsRegVal,
      AxesMap.entries, ofs_regs, defaultAxesMap, SCALE, OFS_SCALE,
      FREEFALL_ACCEL, round_eq, REG_OFSX, REG_OFSY, REG_OFSZ]
  · norm_num [meanBy, defaultAxesMap, SCALE, OFS_SCALE, FREEFALL_ACCEL,
      round_eq]

/-- C6 (amended): on calibration success the value written to each axis's
offset register is `round(-mean / axisScale * (SCALE / OFS_SCALE))`
masked to its low byte (arithmetic `% 256`, Python's `0xFF & ...`), and
the probe is then marked calibrated. -/
theorem c6_offset_write_masked (am : AxesMap) (tt : ℚ)
    (samples : List Accel_Measurement) (ws : List (ℕ × ℤ))
    (h : offset_axes_eval am tt samples = .success ws) :
    ws = [(ofs_regs.getD am.x.1 0,
            round (-(meanBy Accel_Measurement.accel_x samples) / am.x.2 *
              (SCALE / OFS_SCALE)) % 256),
          (ofs_regs.getD am.y.1 0,
            round (-(meanBy Accel_Measurement.accel_y samples) / am.y.2 *
              (SCALE / OFS_SCALE)) % 256),
          (ofs_regs.getD am.z.1 0,
            round (-(meanBy Accel_Measurement.accel_z samples) / am.z.2 *
              (SCALE / OFS_SCALE)) % 256)] ∧
    (∀ (attempt : ℕ → List Accel_Measurement) (r : ℕ),
        attempt 0 = samples →
        (calibrateRun am tt attempt 0 r).calibrated = true ∧
        (calibrateRun am tt attempt 0 r).writes = ws) := by
  constructor
  · simp only [offset_axes_eval] at h
    split at h
    · simp at h
    · split at h
      · simp at h
      · rw [CalibResult.success.injEq] at h
        rw [← h]
        rfl
  · intro attempt r h0
    have hrun := calibrateRun_success_first am tt attempt r ws
      (by rw [h0]; exact h)
    rw [hrun]
    exact ⟨rfl, rfl⟩

/-- C6 witness: the concrete successful calibration of the
counterexample, with its masked write list and the calibrated flag. -/
theorem c6_offset_write_masked_witness :
    ([(REG_OFSX, (255 : ℤ)), (REG_OFSY, 0), (REG_OFSZ, 192)] =
      [(ofs_regs.getD defaultAxesMap.x.1 0,
         round (-(meanBy Accel_Measurement.accel_x
             [⟨0, 4 * SCALE, 0, FREEFALL_ACCEL⟩]) / defaultAxesMap.x.2 *
           (SCALE / OFS_SCALE)) % 256),
       (ofs_regs.getD defaultAxesMap.y.1 0,
         round (-(meanBy Accel_Measurement.accel_y
             [⟨0, 4 * SCALE, 0, FREEFALL_ACCEL⟩]) / defaultAxesMap.y.2 *
           (SCALE / OFS_SCALE)) % 256),
       (ofs_regs.getD defaultAxesMap.z.1 0,
         round (-(meanBy Accel_Measurement.accel_z
             [⟨0, 4 * SCALE, 0, FREEFALL_ACCEL⟩]) / defaultAxesMap.z.2 *
           (SCALE / OFS_SCALE)) % 256)]) ∧
    (calibrateRun defaultAxesMap 5000
        (fun _ : ℕ => [(⟨0, 4 * SCALE, 0, FREEFALL_ACCEL⟩ :
          Accel_Measurement)]) 0 3).calibrated = true ∧
    (calibrateRun defaultAxesMap 5000
        (fun _ : ℕ => [(⟨0, 4 * SCALE, 0, FREEFALL_ACCEL⟩ :
          Accel_Measurement)]) 0 3).writes =
      [(REG_OFSX, 255), (REG_OFSY, 0), (REG_OFSZ, 192)] := by
  have h : offset_axes_eval defaultAxesMap 5000
      [⟨0, 4 * SCALE, 0, FREEFALL_ACCEL⟩] =
      .success [(REG_OFSX, 255), (REG_OFSY, 0), (REG_OFSZ, 192)] := by
    rw [offset_axes_eval]
    norm_num [meanBy, peakDev, magnitudeOutOfBand, writesFor, ofsRegVal,
      AxesMap.entries, ofs_regs, defaultAxesMap, SCALE, OFS_SCALE,
      FREEFALL_ACCEL, round_eq, REG_OFSX, REG_OFSY, REG_OFSZ]
  obtain ⟨h1, h2⟩ := c6_offset_write_masked defaultAxesMap 5000
    [⟨0, 4 * SCALE, 0, FREEFALL_ACCEL⟩]
    [(REG_OFSX, 255), (REG_OFSY, 0), (REG_OFSZ, 192)] h
  exact ⟨h1, h2 (fun _ : ℕ => [⟨0, 4 * SCALE, 0, FREEFALL_ACCEL⟩]) 3 rfl⟩
